import Mathlib

set_option maxHeartbeats 1000000
set_option maxRecDepth 4000

/-!
Shallow embedding of `extract_foreign_paragraphs.py`.

Strings are modelled as `List Char`; Python's whitespace-sensitive string
operations (`split`, `strip`, `lower`) and the four regular expressions of the
source are embedded as executable functions below.  The PDF layer and the
language classifier are external collaborators and appear as parameters; a
Python `IndexError` is modelled by `Option`.
-/

/-- Characters Python treats as whitespace in `str.split()` / `str.strip()` / `\s`
(ASCII model). -/
def pyIsSpace (c : Char) : Bool :=
  c = ' ' || c = '\t' || c = '\n' || c = '\r' || c = '\x0b' || c = '\x0c'

/-- Python `str.strip()`: drop whitespace from both ends. -/
def pyStrip (s : List Char) : List Char :=
  ((s.dropWhile pyIsSpace).reverse.dropWhile pyIsSpace).reverse

def pySplitAux : List Char → List Char → List (List Char)
  | [], acc => if acc.isEmpty then [] else [acc.reverse]
  | c :: rest, acc =>
    if pyIsSpace c then
      if acc.isEmpty then pySplitAux rest [] else acc.reverse :: pySplitAux rest []
    else pySplitAux rest (c :: acc)

/-- Python `str.split()` with no argument: split on whitespace runs, yielding no
empty words. -/
def pySplit (s : List Char) : List (List Char) := pySplitAux s []

/-- Python `text.split(sep)` for a one-character separator: empty pieces are kept. -/
def splitSep (sep : Char) : List Char → List (List Char)
  | [] => [[]]
  | c :: rest =>
    if c = sep then [] :: splitSep sep rest
    else
      match splitSep sep rest with
      | [] => [[c]]
      | w :: ws => (c :: w) :: ws

def s2l (s : String) : List Char := s.data

/-- Python `str.lower()` (ASCII model). -/
def pyLower (s : List Char) : List Char := s.map Char.toLower

/-- Python `\w` (ASCII model): letters, digits, underscore. -/
def isWordChar (c : Char) : Bool := c.isAlphanum || c = '_'

/-- One alternative of `(part\s*no|ref|code|item)` matched at the head of `s`,
returning the length of the match.  The alternatives begin with distinct
letters, so at most one can match at a given position and the regex's
left-to-right alternation order is irrelevant. -/
def forbiddenAt (s : List Char) : Option Nat :=
  if s.take 3 = ['r', 'e', 'f'] then some 3
  else if s.take 4 = ['c', 'o', 'd', 'e'] then some 4
  else if s.take 4 = ['i', 't', 'e', 'm'] then some 4
  else if s.take 4 = ['p', 'a', 'r', 't'] then
    let rest := s.drop 4
    let w := rest.takeWhile pyIsSpace
    if (rest.drop w.length).take 2 = ['n', 'o'] then some (4 + w.length + 2) else none
  else none

/-- `re.search(r'\b(part\s*no|ref|code|item)\b', s)`: try every position; the
Boolean argument records whether the previous character is a word character.
Every alternative starts and ends with a word character, so the leading `\b`
holds iff the previous character is not a word character (or we are at the
start), and the trailing `\b` holds iff the next character is not a word
character (or we are at the end). -/
def searchAux : List Char → Bool → Bool
  | [], _ => false
  | c :: rest, prevWord =>
    (!prevWord &&
      (match forbiddenAt (c :: rest) with
       | some k =>
         match ((c :: rest).drop k).head? with
         | none => true
         | some d => !isWordChar d
       | none => false)) ||
    searchAux rest (isWordChar c)

def searchForbidden (s : List Char) : Bool := searchAux s false

/-- `re.match(r'^\w{2,10}[-\d]*$', s)` for an `s` with no trailing newline (the
call site strips `s` first, so `$` can only be the end of the string): some
`k ∈ [2,10]` leading word characters followed by dashes/digits only. -/
def codeLikeMatch (s : List Char) : Bool :=
  (List.range 9).any fun i =>
    decide (i + 2 ≤ s.length) && (s.take (i + 2)).all isWordChar &&
      (s.drop (i + 2)).all fun c => c = '-' || c.isDigit

def fourDots : List Char := ['.', '.', '.', '.']

/-- `s` contains a run of 4 consecutive periods. -/
def hasDotRun : List Char → Bool
  | [] => false
  | c :: rest => decide ((c :: rest).take 4 = fourDots) || hasDotRun rest

def stripFinalNewline (s : List Char) : List Char :=
  if s.getLast? = some '\n' then s.dropLast else s

/-- `re.match(r'^.*\.{4,}.*$', s)` without MULTILINE/DOTALL: `.` does not cross a
newline, `^` anchors at the start and `$` matches only at the end of the string
or just before one final newline.  Hence the pattern matches iff, after removing
one trailing newline, the whole string is newline-free and contains a run of 4
periods. -/
def dottedLineMatch (s : List Char) : Bool :=
  !((stripFinalNewline s).any fun c => c = '\n') && hasDotRun (stripFinalNewline s)

def isPunctChar (c : Char) : Bool :=
  c = '.' || c = ':' || c = ';' || c = '!' || c = '?'

/-- `is_valid_paragraph` (source lines 11–17). -/
def is_valid_paragraph (text : List Char) : Bool :=
  decide (8 ≤ (pySplit text).length)
    && text.any isPunctChar
    && !codeLikeMatch (pyStrip text)
    && !searchForbidden (pyLower text)
    && !dottedLineMatch text

/-- Character class `[-–—_\s\d.]` of `clean_line`. -/
def sepClassChar (c : Char) : Bool :=
  c = '-' || c = '–' || c = '—' || c = '_' || pyIsSpace c || c.isDigit || c = '.'

/-- `clean_line` (source lines 33–39).  `re.fullmatch(r'[-–—_\s\d.]+', l)` on the
stripped line, which is non-empty on that branch, holds iff every character is
in the class. -/
def clean_line (line : List Char) : List Char :=
  if (pyStrip line).isEmpty || decide (10 < (pyStrip line).count '.') then []
  else if (pyStrip line).all sepClassChar then []
  else pyStrip line

structure Block where
  x0 : Int
  y0 : Int
  x1 : Int
  y1 : Int
  text : List Char
deriving DecidableEq

/-- Python's tuple order on the `(y0, text)` sort keys: `y0` first, ties broken
by comparing the texts lexicographically by code point. -/
def strLe : List Char → List Char → Bool
  | [], _ => true
  | _ :: _, [] => false
  | a :: s, b :: t => if a = b then strLe s t else decide (a < b)

def pairLe (a b : Int × List Char) : Bool :=
  decide (a.1 < b.1) || (decide (a.1 = b.1) && strLe a.2 b.2)

/-- Stable insertion: an element is placed before the first existing element it
is `pairLe`-below-or-equal, as Python's stable `list.sort()` does. -/
def insPair (a : Int × List Char) : List (Int × List Char) → List (Int × List Char)
  | [] => [a]
  | b :: l => if pairLe a b then a :: b :: l else b :: insPair a l

def sortPairs : List (Int × List Char) → List (Int × List Char)
  | [] => []
  | a :: l => insPair a (sortPairs l)

/-- Python newline join, `'\n'.join(...)`. -/
def joinNL : List (List Char) → List Char
  | [] => []
  | [w] => w
  | w :: ws => w ++ '\n' :: joinNL ws

/-- The `for b in blocks` loop of source lines 22–27: partition blocks into the
left/right column accumulators, each holding `(y0, text)` pairs. -/
def partitionCols (column_split : Int) (blocks : List Block) :
    List (Int × List Char) × List (Int × List Char) :=
  blocks.foldl
    (fun lr b =>
      if b.x0 < column_split then (lr.1 ++ [(b.y0, b.text)], lr.2)
      else (lr.1, lr.2 ++ [(b.y0, b.text)]))
    ([], [])

/-- `extract_text_by_columns` (source lines 19–31). -/
def extract_text_by_columns (blocks : List Block) (column_split : Int) : List Char :=
  joinNL ((sortPairs (partitionCols column_split blocks).1
    ++ sortPairs (partitionCols column_split blocks).2).map Prod.snd)

structure Paragraph where
  page : Nat
  paragraph_number : Nat
  text : List Char
  word_count : Nat
deriving DecidableEq

/-- One page of the document as delivered by the external PDF layer: its
positioned blocks and, alternatively, its plain-text extraction. -/
structure PageInput where
  blocks : List Block
  rawText : List Char
deriving DecidableEq

def pageText (use_columns : Bool) (column_split : Int) (pg : PageInput) : List Char :=
  if use_columns then extract_text_by_columns pg.blocks column_split else pg.rawText

/-- The paragraph-closing test of source line 55:
`re.search(r'[.?!:;]$', line.strip()) or len(line.strip()) < 40`. -/
def closeCond (line : List Char) : Bool :=
  (match (pyStrip line).getLast? with
   | some c => isPunctChar c
   | none => false) || decide ((pyStrip line).length < 40)

/-- The record appended on source lines 58–63 / 67–72. -/
def mkPara (pnum k : Nat) (buf : List Char) : Paragraph :=
  ⟨pnum, k, pyStrip buf, (pySplit (pyStrip buf)).length⟩

/-- Source lines 51–54: extend the buffer by the stripped line, space-joined if
the buffer is non-empty. -/
def growBuf (buf line : List Char) : List Char :=
  if buf.isEmpty then pyStrip line else buf ++ ' ' :: pyStrip line

/-- The body of the `for line in lines` loop (source lines 50–64); the state is
`(paragraphs so far, para_buffer, para_num)`. -/
def stepLine (pnum : Nat) (st : List Paragraph × List Char × Nat) (line : List Char) :
    List Paragraph × List Char × Nat :=
  if closeCond line then
    if is_valid_paragraph (growBuf st.2.1 line) then
      (st.1 ++ [mkPara pnum (st.2.2 + 1) (growBuf st.2.1 line)], [], st.2.2 + 1)
    else (st.1, [], st.2.2)
  else (st.1, growBuf st.2.1 line, st.2.2)

/-- The trailing-buffer check of source lines 65–72. -/
def finishPage (pnum : Nat) (st : List Paragraph × List Char × Nat) : List Paragraph :=
  if is_valid_paragraph st.2.1 then st.1 ++ [mkPara pnum (st.2.2 + 1) st.2.1] else st.1

/-- Source lines 46–47: split the page text into lines, clean each, drop empties. -/
def cleanedLines (text : List Char) : List (List Char) :=
  ((splitSep '\n' text).map clean_line).filter fun l => !l.isEmpty

/-- One iteration of the per-page loop body (source lines 45–72). -/
def processPage (pnum : Nat) (text : List Char) : List Paragraph :=
  finishPage pnum ((cleanedLines text).foldl (stepLine pnum) ([], [], 0))

/-- `extract_paragraphs_from_pdf` (source lines 41–73); the PDF layer is an
external collaborator, so the open document is modelled as the list of its
pages, enumerated from 1 as in the source. -/
def extract_paragraphs_from_pdf (pages : List PageInput) (use_columns : Bool)
    (column_split : Int) : List Paragraph :=
  (List.enumFrom 1 pages).foldl
    (fun acc ip => acc ++ processPage ip.1 (pageText use_columns column_split ip.2)) []

structure TaggedParagraph where
  para : Paragraph
  language : String
deriving DecidableEq

/-- `detect_languages` (source lines 75–84); the external classifier is a
parameter, `none` standing for any raised failure, which the source turns into
the tag "unknown". -/
def detect_languages (classify : List Char → Option String) (paragraphs : List Paragraph) :
    List TaggedParagraph × List String :=
  let tagged := paragraphs.map fun p => ⟨p, (classify p.text).getD "unknown"⟩
  (tagged, tagged.map (·.language))

/-- The keys of Python's `Counter(l)` in dict insertion order: order of first
occurrence in `l`. -/
def firstKeys : List String → List String
  | [] => []
  | t :: ts => t :: (firstKeys ts).filter fun x => decide (x ≠ t)

/-- `Counter(l).most_common(1)[0][0]`: the first-inserted key of maximal count
(`heapq.nlargest` is a stable descending sort, so ties go to the
first-encountered key); `none` models the `IndexError` raised when `l` is
empty. -/
def majorLanguageOf (l : List String) : Option String :=
  match firstKeys l with
  | [] => none
  | k :: ks => some (ks.foldl (fun best t => if l.count best < l.count t then t else best) k)

/-- `find_foreign_paragraphs` (source lines 86–92); `none` models the
`IndexError` on an empty tag list. -/
def find_foreign_paragraphs (paragraphs : List TaggedParagraph) (lang_results : List String) :
    Option (String × List TaggedParagraph) :=
  match majorLanguageOf lang_results with
  | none => none
  | some major =>
    some (major, paragraphs.filter fun p =>
      decide (p.language ≠ major) && decide (p.language ≠ "unknown"))

/-- `analyze_pdf_language_and_save_bytesio` (source lines 94–101) up to the CSV
serialization, which the spec places out of scope. -/
def analyze_pdf_language_and_save_bytesio (classify : List Char → Option String)
    (pages : List PageInput) (use_columns : Bool) (column_split : Int) :
    Option (String × List TaggedParagraph) :=
  let paragraphs := extract_paragraphs_from_pdf pages use_columns column_split
  let td := detect_languages classify paragraphs
  find_foreign_paragraphs td.1 td.2

/-- Spec-side reformulation of section 4.3: the candidate strings produced by
the closing rule — grow the buffer by each line, close it exactly when
`closeCond` holds of that line, and give a non-empty final buffer one last
close. -/
def specCandidates : List (List Char) → List Char → List (List Char)
  | [], buf => if buf.isEmpty then [] else [buf]
  | l :: ls, buf =>
    if closeCond l then growBuf buf l :: specCandidates ls [] else specCandidates ls (growBuf buf l)

/-- Validate candidates in order and number the accepted ones `k+1, k+2, …`. -/
def emitFrom (pnum k : Nat) : List (List Char) → List Paragraph
  | [] => []
  | c :: cs =>
    if is_valid_paragraph c then mkPara pnum (k + 1) c :: emitFrom pnum (k + 1) cs
    else emitFrom pnum k cs

/-- A string has no whitespace at either edge (the shape of every cleaned line
and of every non-empty assembler buffer). -/
def noEdge (s : List Char) : Prop :=
  (∀ c, s.head? = some c → pyIsSpace c = false) ∧
  (∀ c, s.getLast? = some c → pyIsSpace c = false)

/-- Ascending `y0` on the `(y0, text)` pairs. -/
def leFst (p q : Int × List Char) : Prop := p.1 ≤ q.1

/-! ### String-level lemmas -/

theorem dropWhile_head?_false (p : Char → Bool) :
    ∀ (l : List Char) (c : Char), (l.dropWhile p).head? = some c → p c = false := by
  intro l
  induction l with
  | nil => intro c h; simp [List.dropWhile] at h
  | cons a l ih =>
    intro c h
    rw [List.dropWhile_cons] at h
    split at h
    · exact ih c h
    · rename_i hpa
      simp only [List.head?_cons, Option.some.injEq] at h
      subst h
      simpa using hpa

theorem getLast?_dropWhile_imp (p : Char → Bool) :
    ∀ (l : List Char) (c : Char), (l.dropWhile p).getLast? = some c → l.getLast? = some c := by
  intro l
  induction l with
  | nil => intro c h; simp [List.dropWhile] at h
  | cons a l ih =>
    intro c h
    rw [List.dropWhile_cons] at h
    split at h
    · have hl := ih c h
      have hne : l ≠ [] := by
        intro hnil; rw [hnil] at hl; simp at hl
      cases l with
      | nil => exact absurd rfl hne
      | cons b m => simpa [List.getLast?_cons_cons] using hl
    · exact h

theorem noEdge_pyStrip (s : List Char) : noEdge (pyStrip s) := by
  unfold pyStrip
  constructor
  · intro c h
    rw [List.head?_reverse] at h
    have h2 := getLast?_dropWhile_imp pyIsSpace _ _ h
    rw [List.getLast?_reverse] at h2
    exact dropWhile_head?_false pyIsSpace _ _ h2
  · intro c h
    rw [List.getLast?_reverse] at h
    exact dropWhile_head?_false pyIsSpace _ _ h

theorem pyStrip_eq_self {s : List Char} (h : noEdge s) : pyStrip s = s := by
  cases s with
  | nil => rfl
  | cons a l =>
    have ha : pyIsSpace a = false := h.1 a rfl
    unfold pyStrip
    rw [List.dropWhile_cons, if_neg (by simp [ha])]
    cases hr : (a :: l).reverse with
    | nil => exact absurd hr (by simp)
    | cons b m =>
      have hb : pyIsSpace b = false := by
        apply h.2
        rw [← List.head?_reverse, hr]; rfl
      rw [List.dropWhile_cons, if_neg (by simp [hb]), ← hr, List.reverse_reverse]

theorem noEdge_of_ne_nil_strip {s x : List Char} (h : s = pyStrip x) : noEdge s := by
  rw [h]; exact noEdge_pyStrip x

theorem noEdge_append {s t : List Char} (hs : noEdge s) (hs0 : s ≠ [])
    (ht : noEdge t) (ht0 : t ≠ []) : noEdge (s ++ ' ' :: t) := by
  constructor
  · intro c h
    cases s with
    | nil => exact absurd rfl hs0
    | cons a l =>
      simp only [List.cons_append, List.head?_cons, Option.some.injEq] at h
      subst h
      exact hs.1 _ rfl
  · intro c h
    cases t with
    | nil => exact absurd rfl ht0
    | cons b m =>
      apply ht.2 c
      obtain ⟨d, hd⟩ := Option.isSome_iff_exists.mp
        (List.getLast?_isSome.mpr (List.cons_ne_nil b m))
      rw [List.getLast?_append, List.getLast?_cons_cons, hd, Option.or_some] at h
      rw [hd, h]

theorem clean_line_cases (x : List Char) :
    clean_line x = [] ∨ clean_line x = pyStrip x := by
  unfold clean_line
  split
  · exact Or.inl rfl
  · split
    · exact Or.inl rfl
    · exact Or.inr rfl

theorem mem_cleanedLines {l : List Char} {text : List Char} (h : l ∈ cleanedLines text) :
    l ≠ [] ∧ noEdge l := by
  unfold cleanedLines at h
  rw [List.mem_filter] at h
  obtain ⟨hmem, hne⟩ := h
  rw [List.mem_map] at hmem
  obtain ⟨y, _, hy⟩ := hmem
  have hl0 : l ≠ [] := by
    intro h0; rw [h0] at hne; simp at hne
  rcases clean_line_cases y with hc | hc
  · rw [hc] at hy; exact absurd hy.symm hl0
  · rw [hc] at hy
    exact ⟨hl0, noEdge_of_ne_nil_strip hy.symm⟩

theorem valid_word_count {t : List Char} (h : is_valid_paragraph t = true) :
    8 ≤ (pySplit t).length := by
  unfold is_valid_paragraph at h
  simp only [Bool.and_eq_true, decide_eq_true_eq] at h
  exact h.1.1.1.1

theorem growBuf_noEdge {buf line : List Char} (hb : buf = [] ∨ (buf ≠ [] ∧ noEdge buf))
    (hl : line ≠ []) (hln : noEdge line) :
    growBuf buf line ≠ [] ∧ noEdge (growBuf buf line) := by
  have hs : pyStrip line = line := pyStrip_eq_self hln
  unfold growBuf
  rw [hs]
  rcases hb with hb | hb
  · subst hb
    simp only [List.isEmpty_nil, if_true]
    exact ⟨hl, hln⟩
  · rw [if_neg (by simpa [List.isEmpty_iff] using hb.1)]
    exact ⟨by simp [hb.1], noEdge_append hb.2 hb.1 hln hl⟩

/-! ### Paragraph assembler refinement -/

theorem is_valid_nil : is_valid_paragraph [] = false := by decide

theorem stepFold_eq_emit (pnum : Nat) :
    ∀ (lines : List (List Char)) (acc : List Paragraph) (buf : List Char) (k : Nat),
      finishPage pnum (lines.foldl (stepLine pnum) (acc, buf, k))
        = acc ++ emitFrom pnum k (specCandidates lines buf) := by
  intro lines
  induction lines with
  | nil =>
    intro acc buf k
    simp only [List.foldl_nil, finishPage, specCandidates]
    by_cases hb : buf = []
    · subst hb
      simp [is_valid_nil, emitFrom]
    · have hbe : buf.isEmpty = false := by simpa [List.isEmpty_iff] using hb
      by_cases hv : is_valid_paragraph buf = true
      · simp [emitFrom, hv, hbe]
      · rw [Bool.not_eq_true] at hv
        simp [emitFrom, hv, hbe]
  | cons l ls ih =>
    intro acc buf k
    simp only [List.foldl_cons, stepLine, specCandidates]
    by_cases hc : closeCond l = true
    · rw [if_pos hc, if_pos hc]
      by_cases hv : is_valid_paragraph (growBuf buf l) = true
      · rw [if_pos hv]
        rw [ih]
        simp [emitFrom, hv, List.append_assoc]
      · rw [if_neg hv]
        rw [ih]
        simp only [emitFrom]
        rw [if_neg hv]
    · rw [if_neg hc, if_neg hc]
      exact ih acc (growBuf buf l) k

theorem processPage_eq_emit (pnum : Nat) (text : List Char) :
    processPage pnum text = emitFrom pnum 0 (specCandidates (cleanedLines text) []) := by
  unfold processPage
  simpa using stepFold_eq_emit pnum (cleanedLines text) [] [] 0

theorem emitFrom_page (pnum : Nat) :
    ∀ (cs : List (List Char)) (k : Nat) (p : Paragraph),
      p ∈ emitFrom pnum k cs → p.page = pnum := by
  intro cs
  induction cs with
  | nil => intro k p h; simp [emitFrom] at h
  | cons c cs ih =>
    intro k p h
    simp only [emitFrom] at h
    split at h
    · rcases List.mem_cons.mp h with h | h
      · rw [h]; rfl
      · exact ih _ p h
    · exact ih _ p h

theorem emitFrom_mem (pnum : Nat) :
    ∀ (cs : List (List Char)) (k : Nat) (p : Paragraph),
      p ∈ emitFrom pnum k cs →
        ∃ c, c ∈ cs ∧ is_valid_paragraph c = true ∧ p.text = pyStrip c ∧
          p.word_count = (pySplit (pyStrip c)).length := by
  intro cs
  induction cs with
  | nil => intro k p h; simp [emitFrom] at h
  | cons c cs ih =>
    intro k p h
    by_cases hv : is_valid_paragraph c = true
    · simp only [emitFrom] at h
      rw [if_pos hv] at h
      rcases List.mem_cons.mp h with h | h
      · exact ⟨c, List.mem_cons_self c cs, hv, by rw [h]; exact ⟨rfl, rfl⟩⟩
      · obtain ⟨d, hd, hrest⟩ := ih _ p h
        exact ⟨d, List.mem_cons_of_mem c hd, hrest⟩
    · simp only [emitFrom] at h
      rw [if_neg hv] at h
      obtain ⟨d, hd, hrest⟩ := ih _ p h
      exact ⟨d, List.mem_cons_of_mem c hd, hrest⟩

theorem emitFrom_numbers (pnum : Nat) :
    ∀ (cs : List (List Char)) (k : Nat),
      (emitFrom pnum k cs).map Paragraph.paragraph_number
        = List.range' (k + 1) (emitFrom pnum k cs).length := by
  intro cs
  induction cs with
  | nil => intro k; simp [emitFrom]
  | cons c cs ih =>
    intro k
    simp only [emitFrom]
    split
    · simp only [List.map_cons, List.length_cons, List.range'_succ]
      exact congrArg (List.cons (k + 1)) (ih (k + 1))
    · exact ih k

theorem specCandidates_noEdge :
    ∀ (lines : List (List Char)) (buf : List Char),
      (∀ l ∈ lines, l ≠ [] ∧ noEdge l) → (buf = [] ∨ (buf ≠ [] ∧ noEdge buf)) →
      ∀ c ∈ specCandidates lines buf, c ≠ [] ∧ noEdge c := by
  intro lines
  induction lines with
  | nil =>
    intro buf _ hb c hc
    simp only [specCandidates] at hc
    rcases hb with hb | hb
    · subst hb; simp at hc
    · rw [if_neg (by simpa [List.isEmpty_iff] using hb.1)] at hc
      rcases List.mem_singleton.mp hc with rfl
      exact hb
  | cons l ls ih =>
    intro buf hlines hb c hc
    have hl := hlines l (List.mem_cons_self l ls)
    have hgrow := growBuf_noEdge hb hl.1 hl.2
    have hls : ∀ x ∈ ls, x ≠ [] ∧ noEdge x :=
      fun x hx => hlines x (List.mem_cons_of_mem l hx)
    simp only [specCandidates] at hc
    split at hc
    · rcases List.mem_cons.mp hc with rfl | hc
      · exact hgrow
      · exact ih [] hls (Or.inl rfl) c hc
    · exact ih (growBuf buf l) hls (Or.inr hgrow) c hc

theorem processPage_valid (pnum : Nat) (text : List Char) (p : Paragraph)
    (hp : p ∈ processPage pnum text) :
    is_valid_paragraph p.text = true ∧ 8 ≤ p.word_count ∧ p.page = pnum := by
  rw [processPage_eq_emit] at hp
  obtain ⟨c, hc, hv, htext, hwc⟩ := emitFrom_mem pnum _ 0 p hp
  have hce := specCandidates_noEdge (cleanedLines text) []
    (fun l hl => mem_cleanedLines hl) (Or.inl rfl) c hc
  have hsc : pyStrip c = c := pyStrip_eq_self hce.2
  refine ⟨?_, ?_, emitFrom_page pnum _ 0 p hp⟩
  · rw [htext, hsc]; exact hv
  · rw [hwc, hsc]; exact valid_word_count hv

/-! ### Whole-document lemmas -/

theorem foldl_append_flatten {α β : Type} (f : α → List β) :
    ∀ (l : List α) (acc : List β),
      l.foldl (fun a x => a ++ f x) acc = acc ++ (l.map f).flatten := by
  intro l
  induction l with
  | nil => intro acc; simp
  | cons x l ih => intro acc; simp [ih, List.append_assoc]

theorem extract_eq_flatten (pages : List PageInput) (uc : Bool) (cs : Int) :
    extract_paragraphs_from_pdf pages uc cs
      = ((List.enumFrom 1 pages).map
          fun ip => processPage ip.1 (pageText uc cs ip.2)).flatten := by
  unfold extract_paragraphs_from_pdf
  simpa using foldl_append_flatten (fun ip : Nat × PageInput =>
    processPage ip.1 (pageText uc cs ip.2)) (List.enumFrom 1 pages) []

theorem mem_extract_page_ge (uc : Bool) (cs : Int) :
    ∀ (pages : List PageInput) (s : Nat) (p : Paragraph),
      p ∈ ((List.enumFrom s pages).map
        fun ip => processPage ip.1 (pageText uc cs ip.2)).flatten → s ≤ p.page := by
  intro pages
  induction pages with
  | nil => intro s p h; simp at h
  | cons pg rest ih =>
    intro s p h
    simp only [List.enumFrom, List.map_cons, List.flatten_cons, List.mem_append] at h
    rcases h with h | h
    · rw [(processPage_valid s _ p h).2.2]
    · exact Nat.le_of_succ_le (ih (s + 1) p h)

theorem filter_extract (uc : Bool) (cs : Int) :
    ∀ (pages : List PageInput) (s i : Nat) (h : i < pages.length),
      (((List.enumFrom s pages).map
        fun ip => processPage ip.1 (pageText uc cs ip.2)).flatten).filter
          (fun p => decide (p.page = s + i))
        = processPage (s + i) (pageText uc cs pages[i]) := by
  intro pages
  induction pages with
  | nil => intro s i h; exact absurd h (by simp)
  | cons pg rest ih =>
    intro s i h
    simp only [List.enumFrom, List.map_cons, List.flatten_cons, List.filter_append]
    cases i with
    | zero =>
      rw [Nat.add_zero]
      have h1 : (processPage s (pageText uc cs pg)).filter (fun p => decide (p.page = s))
          = processPage s (pageText uc cs pg) := by
        rw [List.filter_eq_self]
        intro a ha
        simpa using (processPage_valid s _ a ha).2.2
      have h2 : (((List.enumFrom (s + 1) rest).map
          fun ip => processPage ip.1 (pageText uc cs ip.2)).flatten).filter
            (fun p => decide (p.page = s)) = [] := by
        rw [List.filter_eq_nil_iff]
        intro a ha
        have hge := mem_extract_page_ge uc cs rest (s + 1) a ha
        simp only [decide_eq_true_eq]
        omega
      rw [h1, h2, List.append_nil]
      rfl
    | succ i =>
      have h1 : (processPage s (pageText uc cs pg)).filter
          (fun p => decide (p.page = s + (i + 1))) = [] := by
        rw [List.filter_eq_nil_iff]
        intro a ha
        have hpg := (processPage_valid s _ a ha).2.2
        simp only [decide_eq_true_eq, hpg]
        omega
      have h' : i < rest.length := by simpa using Nat.lt_of_succ_lt_succ (by simpa using h)
      have harith : s + 1 + i = s + (i + 1) := by omega
      have h2 := ih (s + 1) i h'
      rw [harith] at h2
      rw [h1, List.nil_append, h2]
      rfl

/-! ### Claim theorems -/

/-- C1: for every input document and parameter setting, every paragraph emitted by
`extract_paragraphs_from_pdf` satisfies the validator predicate at the moment of
creation — `is_valid_paragraph p.text = true` — and has `word_count ≥ 8`. -/
theorem emitted_paragraphs_satisfy_validator (pages : List PageInput) (uc : Bool)
    (cs : Int) (p : Paragraph) (hp : p ∈ extract_paragraphs_from_pdf pages uc cs) :
    is_valid_paragraph p.text = true ∧ 8 ≤ p.word_count := by
  rw [extract_eq_flatten] at hp
  rw [List.mem_flatten] at hp
  obtain ⟨lp, hlp, hpin⟩ := hp
  rw [List.mem_map] at hlp
  obtain ⟨ip, _, rfl⟩ := hlp
  have h := processPage_valid _ _ _ hpin
  exact ⟨h.1, h.2.1⟩

theorem emitted_paragraphs_satisfy_validator_witness :
    is_valid_paragraph
        (Paragraph.mk 1 1 (s2l "one two three four five six seven eight.") 8).text = true
      ∧ 8 ≤ (Paragraph.mk 1 1 (s2l "one two three four five six seven eight.") 8).word_count :=
  emitted_paragraphs_satisfy_validator
    [PageInput.mk [] (s2l "one two three four five six seven eight.")] false 300
    (Paragraph.mk 1 1 (s2l "one two three four five six seven eight.") 8) (by decide)

/-- C2: within each page the `paragraph_number` values of the emitted paragraphs
are exactly `1, 2, …, k` (start at 1, +1 per accepted paragraph, no gaps), the
counter is reset on every new page, and the paragraphs carrying a given page
number are exactly the output of that page's own processing — so what happens on
other pages cannot affect a page's numbering. -/
theorem paragraph_numbering_per_page (pages : List PageInput) (uc : Bool) (cs : Int)
    (i : Nat) (h : i < pages.length) :
    (extract_paragraphs_from_pdf pages uc cs).filter (fun p => decide (p.page = i + 1))
        = processPage (i + 1) (pageText uc cs pages[i])
      ∧ (processPage (i + 1) (pageText uc cs pages[i])).map Paragraph.paragraph_number
        = List.range' 1 (processPage (i + 1) (pageText uc cs pages[i])).length := by
  constructor
  · rw [extract_eq_flatten]
    have hf := filter_extract uc cs pages 1 i h
    rw [Nat.add_comm 1 i] at hf
    exact hf
  · rw [processPage_eq_emit]
    simpa using emitFrom_numbers (i + 1) (specCandidates (cleanedLines (pageText uc cs pages[i])) []) 0

theorem paragraph_numbering_per_page_witness :
    (extract_paragraphs_from_pdf
        [PageInput.mk [] (s2l "one two three four five six seven eight.")] false 300).filter
          (fun p => decide (p.page = 0 + 1))
        = processPage (0 + 1)
            (pageText false 300 (PageInput.mk [] (s2l "one two three four five six seven eight.")))
      ∧ (processPage (0 + 1)
            (pageText false 300
              (PageInput.mk [] (s2l "one two three four five six seven eight.")))).map
          Paragraph.paragraph_number
        = List.range' 1 (processPage (0 + 1)
            (pageText false 300
              (PageInput.mk [] (s2l "one two three four five six seven eight.")))).length :=
  paragraph_numbering_per_page
    [PageInput.mk [] (s2l "one two three four five six seven eight.")] false 300 0 (by decide)

/-- C3: the per-page assembler loop is equivalent to the spec's closing rule:
after appending a line, the buffer is closed exactly when `closeCond` holds of
that line (trimmed line ends in `. ? ! : ;` or has trimmed length under 40);
every close hands the buffer to the validator and resets it whether or not the
candidate is accepted; and a non-empty final buffer gets one last close the same
way.  `specCandidates` is that rule verbatim, and `emitFrom` is
validate-then-number, so the loop emits exactly the accepted candidates. -/
theorem assembler_closes_exactly_by_rule (pnum : Nat) (text : List Char) :
    processPage pnum text = emitFrom pnum 0 (specCandidates (cleanedLines text) []) :=
  processPage_eq_emit pnum text

/-! ### Dot-run lemmas (validator guard) -/

theorem hasDotRun_cons (c : Char) (rest : List Char) :
    hasDotRun (c :: rest) = (decide ((c :: rest).take 4 = fourDots) || hasDotRun rest) := rfl

theorem hasDotRun_append : ∀ (a b : List Char), hasDotRun (a ++ fourDots ++ b) = true := by
  intro a
  induction a with
  | nil =>
    intro b
    rw [List.nil_append]
    rw [show fourDots ++ b = '.' :: '.' :: '.' :: '.' :: b from rfl]
    rw [hasDotRun_cons]
    rw [show (('.' : Char) :: '.' :: '.' :: '.' :: b).take 4 = fourDots from rfl]
    simp
  | cons c a ih =>
    intro b
    rw [List.cons_append, List.cons_append, hasDotRun_cons, ih b, Bool.or_true]

theorem hasDotRun_eq_true_iff (s : List Char) :
    hasDotRun s = true ↔ ∃ a b, s = a ++ fourDots ++ b := by
  constructor
  · intro h
    induction s with
    | nil => simp [hasDotRun] at h
    | cons c rest ih =>
      rw [hasDotRun_cons, Bool.or_eq_true, decide_eq_true_eq] at h
      rcases h with h | h
      · refine ⟨[], (c :: rest).drop 4, ?_⟩
        rw [List.nil_append, ← h, List.take_append_drop]
      · obtain ⟨a, b, hab⟩ := ih h
        exact ⟨c :: a, b, by rw [hab]; rfl⟩
  · rintro ⟨a, b, rfl⟩
    exact hasDotRun_append a b

theorem hasDotRun_dropLast_false {t : List Char} (h : hasDotRun t = false) :
    hasDotRun t.dropLast = false := by
  cases hc : hasDotRun t.dropLast with
  | false => rfl
  | true =>
    exfalso
    obtain ⟨a, b, hab⟩ := (hasDotRun_eq_true_iff _).mp hc
    have ht0 : t ≠ [] := by
      intro h0
      subst h0
      simp [fourDots] at hab
    have hsplit : t = (a ++ fourDots ++ b) ++ [t.getLast ht0] := by
      rw [← hab]
      exact (List.dropLast_concat_getLast ht0).symm
    have hrun : hasDotRun t = true := by
      rw [hsplit]
      have happ := hasDotRun_append a (b ++ [t.getLast ht0])
      simpa [List.append_assoc] using happ
    rw [hrun] at h
    exact Bool.noConfusion h

/-! ### C5 -/

/-- C5 counterexample: a text with a 4-period run placed after a newline is
nonetheless accepted by `is_valid_paragraph`, because `re.match(r'^.*\.{4,}.*$')`
cannot cross a newline — so the claim "rejected whenever `....` occurs at any
position (including after a newline)" is false. -/
theorem dot_run_guard_misses_after_newline :
    is_valid_paragraph (s2l "one two three four five six seven eight.\n....") = true
      ∧ s2l "one two three four five six seven eight.\n...."
        = s2l "one two three four five six seven eight.\n" ++ fourDots ++ [] := by
  exact ⟨by decide, by decide⟩

/-- C5 (amended): for every text that contains **no newline character**,
`is_valid_paragraph` is false whenever `....` occurs as a substring at any
position; the dotted-line regex confines `.*` to a single line, so the guarantee
holds only for newline-free texts (which all pipeline-built paragraph buffers
are). -/
theorem dot_run_rejected_in_newline_free_text (t a b : List Char)
    (ht : t = a ++ fourDots ++ b) (hnl : ('\n' : Char) ∉ t) :
    is_valid_paragraph t = false := by
  have hrun : hasDotRun t = true := by rw [ht]; exact hasDotRun_append a b
  have hsf : stripFinalNewline t = t := by
    unfold stripFinalNewline
    rw [if_neg]
    intro hc
    exact hnl (List.mem_of_getLast?_eq_some hc)
  have hany : ((stripFinalNewline t).any fun c => decide (c = '\n')) = false := by
    rw [hsf, List.any_eq_false]
    intro c hcmem
    simp only [decide_eq_true_eq]
    intro hceq
    exact hnl (hceq ▸ hcmem)
  have hd : dottedLineMatch t = true := by
    unfold dottedLineMatch
    rw [hany, hsf, hrun]
    rfl
  unfold is_valid_paragraph
  rw [hd]
  simp

theorem dot_run_rejected_in_newline_free_text_witness :
    is_valid_paragraph (s2l "a b c d e f g h " ++ fourDots) = false :=
  dot_run_rejected_in_newline_free_text (s2l "a b c d e f g h " ++ fourDots)
    (s2l "a b c d e f g h ") [] (by decide) (by decide)

/-! ### C6 -/

/-- C6 counterexample: `clean_line` does **not** map `"Table of Contents....... 12"`
to the empty string — the line contains only 7 periods, so the more-than-10
periods rule does not fire and the (already trimmed) line is returned
unchanged. -/
theorem clean_line_keeps_seven_dot_toc_line :
    clean_line (s2l "Table of Contents....... 12") ≠ [] := by decide

/-- C6 (amended): the all-period line (22 periods) is cleaned to empty; the
spec's second example line has only 7 periods — not more than 10 — so it is
returned unchanged; a variant of it with 12 periods is cleaned to empty. -/
theorem clean_line_dot_leader_examples :
    clean_line (s2l "......................") = []
      ∧ clean_line (s2l "Table of Contents....... 12") = s2l "Table of Contents....... 12"
      ∧ clean_line (s2l "Table of Contents............ 12") = [] := by
  exact ⟨by decide, by decide, by decide⟩

/-! ### C9 -/

/-- C9: every candidate of exactly 8 whitespace-separated words that ends in a
period, matches no forbidden standalone word/phrase, has no 4-period run and is
not shaped like a short alphanumeric code is accepted by `is_valid_paragraph`;
and every candidate of exactly 7 words is rejected. -/
theorem eight_words_accepted_seven_rejected :
    (∀ t : List Char,
        (pySplit t).length = 8 →
        t.getLast? = some '.' →
        codeLikeMatch (pyStrip t) = false →
        searchForbidden (pyLower t) = false →
        hasDotRun t = false →
        is_valid_paragraph t = true)
      ∧ ∀ t : List Char, (pySplit t).length = 7 → is_valid_paragraph t = false := by
  constructor
  · intro t h8 hdot hcode hforb hrun
    unfold is_valid_paragraph
    have hA : decide (8 ≤ (pySplit t).length) = true := by simp [h8]
    have hB : t.any isPunctChar = true := by
      rw [List.any_eq_true]
      exact ⟨'.', List.mem_of_getLast?_eq_some hdot, by decide⟩
    have hE : dottedLineMatch t = false := by
      have hsfrun : hasDotRun (stripFinalNewline t) = false := by
        unfold stripFinalNewline
        split
        · exact hasDotRun_dropLast_false hrun
        · exact hrun
      unfold dottedLineMatch
      rw [hsfrun, Bool.and_false]
    rw [hA, hB, hcode, hforb, hE]
    rfl
  · intro t h7
    unfold is_valid_paragraph
    have hA : decide (8 ≤ (pySplit t).length) = false := by simp [h7]
    rw [hA]
    simp

theorem eight_words_accepted_seven_rejected_witness :
    is_valid_paragraph (s2l "one two three four five six seven eight.") = true
      ∧ is_valid_paragraph (s2l "one two three four five six seven.") = false :=
  ⟨eight_words_accepted_seven_rejected.1 (s2l "one two three four five six seven eight.")
      (by decide) (by decide) (by decide) (by decide) (by decide),
    eight_words_accepted_seven_rejected.2 (s2l "one two three four five six seven.")
      (by decide)⟩

/-! ### Language aggregation lemmas -/

theorem mem_firstKeys (l : List String) : ∀ x : String, x ∈ firstKeys l ↔ x ∈ l := by
  induction l with
  | nil => intro x; simp [firstKeys]
  | cons t ts ih =>
    intro x
    simp only [firstKeys, List.mem_cons, List.mem_filter, decide_eq_true_eq]
    constructor
    · rintro (rfl | ⟨hx, _⟩)
      · exact Or.inl rfl
      · exact Or.inr ((ih x).mp hx)
    · rintro (rfl | hx)
      · exact Or.inl rfl
      · by_cases hxt : x = t
        · exact Or.inl hxt
        · exact Or.inr ⟨(ih x).mpr hx, hxt⟩

theorem firstKeys_eq_nil_iff (l : List String) : firstKeys l = [] ↔ l = [] := by
  cases l with
  | nil => simp [firstKeys]
  | cons t ts => simp [firstKeys]

theorem foldBest_spec (l : List String) :
    ∀ (ks : List String) (k0 : String),
      (ks.foldl (fun best t => if l.count best < l.count t then t else best) k0) ∈ k0 :: ks
        ∧ ∀ x ∈ k0 :: ks,
            l.count x ≤ l.count
              (ks.foldl (fun best t => if l.count best < l.count t then t else best) k0) := by
  intro ks
  induction ks with
  | nil =>
    intro k0
    refine ⟨List.mem_cons_self k0 [], ?_⟩
    intro x hx
    rcases List.mem_cons.mp hx with rfl | hx
    · exact le_refl _
    · simp at hx
  | cons t ts ih =>
    intro k0
    simp only [List.foldl_cons]
    by_cases h : l.count k0 < l.count t
    · rw [if_pos h]
      obtain ⟨hmem, hle⟩ := ih t
      constructor
      · rcases List.mem_cons.mp hmem with hm | hm
        · rw [hm]; exact List.mem_cons_of_mem k0 (hm ▸ List.mem_cons_self t ts)
        · exact List.mem_cons_of_mem k0 (List.mem_cons_of_mem t hm)
      · intro x hx
        rcases List.mem_cons.mp hx with rfl | hx
        · exact le_trans (le_of_lt h) (hle t (List.mem_cons_self t ts))
        · exact hle x hx
    · rw [if_neg h]
      obtain ⟨hmem, hle⟩ := ih k0
      constructor
      · rcases List.mem_cons.mp hmem with hm | hm
        · rw [hm]; exact List.mem_cons_self k0 (t :: ts)
        · exact List.mem_cons_of_mem k0 (List.mem_cons_of_mem t hm)
      · intro x hx
        rcases List.mem_cons.mp hx with rfl | hx
        · exact hle x (List.mem_cons_self x ts)
        · rcases List.mem_cons.mp hx with rfl | hx
          · exact le_trans (Nat.le_of_not_lt h) (hle k0 (List.mem_cons_self k0 ts))
          · exact hle x (List.mem_cons_of_mem k0 hx)

theorem majorLanguageOf_eq_none_iff (l : List String) :
    majorLanguageOf l = none ↔ l = [] := by
  unfold majorLanguageOf
  cases hfk : firstKeys l with
  | nil => simpa using (firstKeys_eq_nil_iff l).mp hfk
  | cons k ks =>
    simp only [reduceCtorEq, false_iff]
    intro h0
    rw [h0] at hfk
    simp [firstKeys] at hfk

theorem majorLanguageOf_count_ge {l : List String} {maj : String}
    (h : majorLanguageOf l = some maj) : ∀ x ∈ l, l.count x ≤ l.count maj := by
  unfold majorLanguageOf at h
  cases hfk : firstKeys l with
  | nil => rw [hfk] at h; exact Option.noConfusion h
  | cons k ks =>
    rw [hfk] at h
    injection h with h
    intro x hx
    have hxk : x ∈ k :: ks := by rw [← hfk]; exact (mem_firstKeys l x).mpr hx
    have := (foldBest_spec l ks k).2 x hxk
    rw [← h]
    exact this

/-! ### C4 -/

/-- C4 counterexample: the counter behind the major language tallies the
"unknown" tag too, so a list whose tags include a non-"unknown" tag can still
yield major language "unknown" — here two "unknown" tags outvote one "en". -/
theorem major_language_can_be_unknown :
    (find_foreign_paragraphs
        [⟨⟨1, 1, [], 0⟩, "unknown"⟩, ⟨⟨1, 2, [], 0⟩, "unknown"⟩, ⟨⟨1, 3, [], 0⟩, "en"⟩]
        ["unknown", "unknown", "en"]).map Prod.fst = some "unknown"
      ∧ "en" ∈ ["unknown", "unknown", "en"] ∧ ("en" : String) ≠ "unknown" :=
  ⟨by decide, by decide, by decide⟩

/-- C4 (amended): the frequency count includes the "unknown" tag; the major
language returned by `find_foreign_paragraphs` is guaranteed not to be the
sentinel only when some tag occurs strictly more often than "unknown" does. -/
theorem major_language_not_unknown_when_outnumbered (ps : List TaggedParagraph)
    (ls : List String) (t : String) (htmem : t ∈ ls)
    (hcount : ls.count "unknown" < ls.count t) :
    ∃ maj fps, find_foreign_paragraphs ps ls = some (maj, fps) ∧ maj ≠ "unknown" := by
  have hne : ls ≠ [] := List.ne_nil_of_mem htmem
  cases hmaj : majorLanguageOf ls with
  | none => exact absurd ((majorLanguageOf_eq_none_iff ls).mp hmaj) hne
  | some maj =>
    refine ⟨maj,
      ps.filter (fun p => decide (p.language ≠ maj) && decide (p.language ≠ "unknown")),
      ?_, ?_⟩
    · unfold find_foreign_paragraphs
      rw [hmaj]
    · intro hu
      have hge := majorLanguageOf_count_ge hmaj t htmem
      rw [hu] at hge
      omega

theorem major_language_not_unknown_when_outnumbered_witness :
    ∃ maj fps,
      find_foreign_paragraphs
          [⟨⟨1, 1, [], 0⟩, "en"⟩, ⟨⟨1, 2, [], 0⟩, "unknown"⟩, ⟨⟨1, 3, [], 0⟩, "en"⟩]
          ["en", "unknown", "en"] = some (maj, fps)
        ∧ maj ≠ "unknown" :=
  major_language_not_unknown_when_outnumbered
    [⟨⟨1, 1, [], 0⟩, "en"⟩, ⟨⟨1, 2, [], 0⟩, "unknown"⟩, ⟨⟨1, 3, [], 0⟩, "en"⟩]
    ["en", "unknown", "en"] "en" (by decide) (by decide)

/-! ### C7 -/

/-- C7: when `find_foreign_paragraphs` succeeds, a paragraph is in the foreign
list iff it is an input paragraph whose tag is neither the returned major
language nor "unknown", and the foreign list is an order-preserving sublist of
the input list. -/
theorem foreign_iff_tag_differs (ps : List TaggedParagraph) (ls : List String)
    (maj : String) (fps : List TaggedParagraph)
    (h : find_foreign_paragraphs ps ls = some (maj, fps)) :
    (∀ p, p ∈ fps ↔ p ∈ ps ∧ p.language ≠ maj ∧ p.language ≠ "unknown")
      ∧ List.Sublist fps ps := by
  unfold find_foreign_paragraphs at h
  cases hmaj : majorLanguageOf ls with
  | none => rw [hmaj] at h; exact Option.noConfusion h
  | some m =>
    rw [hmaj] at h
    simp only [Option.some.injEq, Prod.mk.injEq] at h
    obtain ⟨rfl, hfps⟩ := h
    constructor
    · intro p
      rw [← hfps, List.mem_filter]
      simp [Bool.and_eq_true, decide_eq_true_eq]
    · rw [← hfps]
      exact List.filter_sublist ps

theorem foreign_iff_tag_differs_witness :
    (∀ p, p ∈ [(⟨⟨1, 2, [], 0⟩, "fr"⟩ : TaggedParagraph)] ↔
        p ∈ [(⟨⟨1, 1, [], 0⟩, "en"⟩ : TaggedParagraph), ⟨⟨1, 2, [], 0⟩, "fr"⟩]
          ∧ p.language ≠ "en" ∧ p.language ≠ "unknown")
      ∧ List.Sublist [(⟨⟨1, 2, [], 0⟩, "fr"⟩ : TaggedParagraph)]
          [(⟨⟨1, 1, [], 0⟩, "en"⟩ : TaggedParagraph), ⟨⟨1, 2, [], 0⟩, "fr"⟩] :=
  foreign_iff_tag_differs [⟨⟨1, 1, [], 0⟩, "en"⟩, ⟨⟨1, 2, [], 0⟩, "fr"⟩] ["en", "fr"]
    "en" [⟨⟨1, 2, [], 0⟩, "fr"⟩] (by decide)

/-! ### C10 -/

/-- C10: when no candidate passes the validator — the accepted-paragraph list is
empty — `find_foreign_paragraphs` reaches `most_common(1)[0]` on an empty
counter (`none` models the `IndexError`), so the whole-document analysis faults
instead of returning an empty foreign set. -/
theorem empty_extraction_faults (classify : List Char → Option String)
    (pages : List PageInput) (uc : Bool) (cs : Int)
    (h : extract_paragraphs_from_pdf pages uc cs = []) :
    analyze_pdf_language_and_save_bytesio classify pages uc cs = none
      ∧ find_foreign_paragraphs [] [] = none := by
  refine ⟨?_, rfl⟩
  unfold analyze_pdf_language_and_save_bytesio
  rw [h]
  rfl

theorem empty_extraction_faults_witness :
    analyze_pdf_language_and_save_bytesio (fun _ => none) [PageInput.mk [] []] true 300 = none
      ∧ find_foreign_paragraphs [] [] = none :=
  empty_extraction_faults (fun _ => none) [PageInput.mk [] []] true 300 (by decide)

/-! ### Block orderer lemmas -/

theorem insPair_perm (a : Int × List Char) :
    ∀ l, List.Perm (insPair a l) (a :: l) := by
  intro l
  induction l with
  | nil => exact List.Perm.refl _
  | cons b l ih =>
    unfold insPair
    split
    · exact List.Perm.refl _
    · exact List.Perm.trans (List.Perm.cons b ih) (List.Perm.swap a b l)

theorem sortPairs_perm : ∀ l, List.Perm (sortPairs l) l := by
  intro l
  induction l with
  | nil => exact List.Perm.refl _
  | cons a l ih =>
    exact List.Perm.trans (insPair_perm a (sortPairs l)) (List.Perm.cons a ih)

theorem pairLe_fst {a b : Int × List Char} (h : pairLe a b = true) : leFst a b := by
  unfold pairLe at h
  rw [Bool.or_eq_true, Bool.and_eq_true] at h
  rcases h with h | ⟨h, _⟩
  · exact le_of_lt (by simpa using h)
  · exact le_of_eq (by simpa using h)

theorem pairLe_false_fst {a b : Int × List Char} (h : pairLe a b = false) : leFst b a := by
  unfold pairLe at h
  rw [Bool.or_eq_false_iff] at h
  have h1 : ¬a.1 < b.1 := by simpa using h.1
  exact le_of_not_lt h1

theorem sorted_insPair (a : Int × List Char) :
    ∀ l, List.Sorted leFst l → List.Sorted leFst (insPair a l) := by
  intro l
  induction l with
  | nil => intro _; simp [insPair]
  | cons b l ih =>
    intro h
    unfold insPair
    obtain ⟨hbl, hl⟩ := List.sorted_cons.mp h
    split
    · rename_i hab
      rw [List.sorted_cons]
      refine ⟨?_, h⟩
      intro x hx
      rcases List.mem_cons.mp hx with rfl | hx
      · exact pairLe_fst hab
      · exact le_trans (pairLe_fst hab) (hbl x hx)
    · rename_i hab
      have hba : leFst b a := pairLe_false_fst (by simpa using hab)
      rw [List.sorted_cons]
      refine ⟨?_, ih hl⟩
      intro x hx
      have hx' : x ∈ a :: l := ((insPair_perm a l).mem_iff).mp hx
      rcases List.mem_cons.mp hx' with rfl | hx'
      · exact hba
      · exact hbl x hx'

theorem sorted_sortPairs : ∀ l, List.Sorted leFst (sortPairs l) := by
  intro l
  induction l with
  | nil => simp [sortPairs]
  | cons a l ih => exact sorted_insPair a (sortPairs l) ih

theorem sorted_map_fst (l : List (Int × List Char)) :
    ((sortPairs l).map Prod.fst).Sorted (· ≤ ·) :=
  List.Pairwise.map Prod.fst (fun _ _ hab => hab) (sorted_sortPairs l)

theorem partitionAux_eq (split : Int) :
    ∀ (blocks : List Block) (lr : List (Int × List Char) × List (Int × List Char)),
      blocks.foldl
        (fun lr b =>
          if b.x0 < split then (lr.1 ++ [(b.y0, b.text)], lr.2)
          else (lr.1, lr.2 ++ [(b.y0, b.text)]))
        lr
      = (lr.1 ++ ((blocks.filter fun b => decide (b.x0 < split)).map fun b => (b.y0, b.text)),
         lr.2 ++ ((blocks.filter fun b => !decide (b.x0 < split)).map fun b => (b.y0, b.text))) := by
  intro blocks
  induction blocks with
  | nil => intro lr; simp
  | cons b bs ih =>
    intro lr
    simp only [List.foldl_cons, List.filter_cons]
    by_cases hb : b.x0 < split
    · rw [if_pos hb, ih]
      simp [hb, List.append_assoc]
    · rw [if_neg hb, ih]
      simp [hb, List.append_assoc]

theorem partitionCols_spec (split : Int) (blocks : List Block) :
    partitionCols split blocks
      = (((blocks.filter fun b => decide (b.x0 < split)).map fun b => (b.y0, b.text)),
         ((blocks.filter fun b => !decide (b.x0 < split)).map fun b => (b.y0, b.text))) := by
  unfold partitionCols
  rw [partitionAux_eq]
  simp

/-! ### C8 -/

/-- C8: the block orderer puts exactly the blocks with `x0 < threshold` in the
left group and the rest in the right group, sorts each group ascending by `y0`
(each sorted group being a permutation of its filtered group), and outputs the
left texts followed by the right texts joined by newline; an empty block list
yields the empty string; and on the spec's three-block example with
`column_split = 300` the output order is "left top", "left bottom",
"right top". -/
theorem block_orderer_partitions_and_sorts :
    (∀ (blocks : List Block) (split : Int),
        extract_text_by_columns blocks split
          = joinNL ((sortPairs ((blocks.filter fun b => decide (b.x0 < split)).map
                fun b => (b.y0, b.text))
              ++ sortPairs ((blocks.filter fun b => !decide (b.x0 < split)).map
                fun b => (b.y0, b.text))).map Prod.snd)
        ∧ ((sortPairs ((blocks.filter fun b => decide (b.x0 < split)).map
              fun b => (b.y0, b.text))).map Prod.fst).Sorted (· ≤ ·)
        ∧ ((sortPairs ((blocks.filter fun b => !decide (b.x0 < split)).map
              fun b => (b.y0, b.text))).map Prod.fst).Sorted (· ≤ ·)
        ∧ List.Perm (sortPairs ((blocks.filter fun b => decide (b.x0 < split)).map
              fun b => (b.y0, b.text)))
            ((blocks.filter fun b => decide (b.x0 < split)).map fun b => (b.y0, b.text))
        ∧ List.Perm (sortPairs ((blocks.filter fun b => !decide (b.x0 < split)).map
              fun b => (b.y0, b.text)))
            ((blocks.filter fun b => !decide (b.x0 < split)).map fun b => (b.y0, b.text)))
      ∧ (∀ split : Int, extract_text_by_columns [] split = [])
      ∧ extract_text_by_columns
          [⟨10, 10, 100, 20, s2l "left top"⟩, ⟨320, 10, 400, 20, s2l "right top"⟩,
           ⟨10, 50, 100, 60, s2l "left bottom"⟩] 300
        = s2l "left top\nleft bottom\nright top" := by
  refine ⟨?_, fun _ => rfl, by decide⟩
  intro blocks split
  refine ⟨?_, sorted_map_fst _, sorted_map_fst _, sortPairs_perm _, sortPairs_perm _⟩
  unfold extract_text_by_columns
  rw [partitionCols_spec]

example : is_valid_paragraph (s2l "one two three four five six seven eight.") = true := by decide
example : is_valid_paragraph (s2l "one two three four five six seven.") = false := by decide
example : is_valid_paragraph (s2l "a b c d e f g h part no x.") = false := by decide
example : is_valid_paragraph (s2l "AB-1234") = false := by decide
example : clean_line (s2l "  Table of Contents....... 12 ") = s2l "Table of Contents....... 12" := by decide
example : clean_line (s2l "......................") = [] := by decide
example : clean_line (s2l " -- 12 .. ") = [] := by decide
example : is_valid_paragraph (s2l "one two three four five six seven eight.\n....") = true := by decide
example : is_valid_paragraph (s2l "one two three four five six seven eight .... x") = false := by decide
example :
    extract_paragraphs_from_pdf [⟨[], s2l "one two three four five six seven eight."⟩] false 300
      = [⟨1, 1, s2l "one two three four five six seven eight.", 8⟩] := by decide
example :
    extract_text_by_columns
      [⟨10, 10, 100, 20, s2l "left top"⟩, ⟨320, 10, 400, 20, s2l "right top"⟩,
       ⟨10, 50, 100, 60, s2l "left bottom"⟩] 300
      = s2l "left top\nleft bottom\nright top" := by decide
example :
    majorLanguageOf ["unknown", "unknown", "en"] = some "unknown" := by decide
example : majorLanguageOf ["fr", "en", "en", "fr"] = some "fr" := by decide
example : searchForbidden (pyLower (s2l "Part No 7")) = true := by decide
example : searchForbidden (pyLower (s2l "a refb")) = false := by decide
example : codeLikeMatch (pyStrip (s2l "ab_cd-9")) = true := by decide
example :
    processPage 1 (s2l "This is a long opening line of prose that keeps going well past forty chars\nand then it finally ends with a period.\nshort line\n  12 34 --- ...\n.....................\nAnother paragraph begins here and continues with many additional words across\ntwo broken layout lines without terminal punctuation yet still quite long here\ntail!\nAB-1234\na b c d e f g h part no x.\none two three four five six seven eight.")
      = [⟨1, 1, s2l "This is a long opening line of prose that keeps going well past forty chars and then it finally ends with a period.", 23⟩,
         ⟨1, 2, s2l "Another paragraph begins here and continues with many additional words across two broken layout lines without terminal punctuation yet still quite long here tail!", 24⟩,
         ⟨1, 3, s2l "one two three four five six seven eight.", 8⟩] := by decide
